import Mathlib

/-!
# LinkedList (include/linkedlist.h): heap-level model

The C++ class keeps raw pointers `first`, `last`, `cache.node` into a chain of
heap nodes.  Several claims are about exactly those pointers (dangling `last`,
stale cache), so the model keeps an explicit heap:

* an address is a `Nat`, a pointer is an `Option Nat` (`none` is `nullptr`);
* the heap is a list of slots, slot `a` being `some node` (live), `none`
  (destroyed by `delete`) or absent (never allocated);
* `new` appends a slot, so a fresh address is never an address handed out before;
* dereferencing `nullptr`, a destroyed node or a wild address is undefined
  behaviour in C++; the model stops with a `Fault` there;
* `assert` is modelled as enabled (a failed assertion is `Fault.assertion`);
* `size_t` counters are modelled as `Nat`.  `length` counts live nodes and is
  bounded by the address space, so `length++` cannot wrap.  `cache.idx` can hold
  any value (the copy constructor leaves it indeterminate when the source is
  empty), so `cache.idx++` wraps from `SIZE_MAX` to `0`.  Every decrement
  (`length--`, `cache.idx--`, `pos - 1`, `length - 1`) is guarded by a comparison
  or assertion that keeps it above zero;
* loops that follow links until `nullptr` (`destroy_nodes`, the copy constructor,
  `operator==`) take fuel `heap size + 1`; a chain of live nodes that ends in
  `nullptr` is never longer than the heap, so the fuel runs out only on a cyclic chain,
  where the C++ loop does not terminate (`Fault.nontermination`).
-/

namespace LL

deriving instance DecidableEq for Except

/-- Ways an operation can stop without returning. -/
inductive Fault where
  | assertion
  | nullDeref
  | invalidDeref
  | nontermination
  deriving DecidableEq, Repr

/-- `struct Node { T value; Node *next = nullptr; }`. -/
structure Node (T : Type) where
  value : T
  next : Option Nat
  deriving DecidableEq, Repr

/-- The heap: slot `a` is `some n` for a live node, `none` for a destroyed one. -/
abbrev Heap (T : Type) := List (Option (Node T))

/-- The anonymous `struct { size_t idx; Node *node; } cache`. -/
structure Cache where
  idx : Nat
  node : Option Nat
  deriving DecidableEq, Repr

/-- The data members of `LinkedList<T>`. -/
structure LinkedList where
  length : Nat
  first : Option Nat
  last : Option Nat
  cache : Cache
  deriving DecidableEq, Repr

/-- Dereference `p` (as in `p->next`, `p->value`). -/
def Heap.read {T : Type} (h : Heap T) (p : Option Nat) : Except Fault (Node T) :=
  match p with
  | none => .error .nullDeref
  | some a =>
    match h[a]? with
    | some (some n) => .ok n
    | _ => .error .invalidDeref

/-- `new Node { ... }`: the node is placed at a fresh address. -/
def Heap.alloc {T : Type} (h : Heap T) (n : Node T) : Heap T × Option Nat :=
  (h ++ [some n], some h.length)

/-- Assignment through `p` (as in `p->next = q`): `p` must point to a live node. -/
def Heap.setNext {T : Type} (h : Heap T) (p : Option Nat) (q : Option Nat) :
    Except Fault (Heap T) :=
  match p with
  | none => .error .nullDeref
  | some a =>
    match h[a]? with
    | some (some n) => .ok (h.set a (some { n with next := q }))
    | _ => .error .invalidDeref

/-- `delete p`: a no-op on `nullptr`, otherwise `p` must point to a live node. -/
def Heap.delete {T : Type} (h : Heap T) (p : Option Nat) : Except Fault (Heap T) :=
  match p with
  | none => .ok h
  | some a =>
    match h[a]? with
    | some (some _) => .ok (h.set a none)
    | _ => .error .invalidDeref

/-- The loop `for (; i < idx; i++) node = node->next;` run for `k = idx - i` rounds. -/
def follow {T : Type} (h : Heap T) : Nat → Option Nat → Except Fault (Option Nat)
  | 0, node => .ok node
  | k + 1, node =>
    match h.read node with
    | .ok n => follow h k n.next
    | .error e => .error e

/-- `LinkedList::_get_node`: returns the node and the list with the cache overwritten. -/
def _get_node {T : Type} (h : Heap T) (l : LinkedList) (idx : Nat) :
    Except Fault (Option Nat × LinkedList) :=
  let start : Nat × Option Nat :=
    if l.cache.idx ≤ idx then (l.cache.idx, l.cache.node) else (0, l.first)
  match follow h (idx - start.1) start.2 with
  | .ok node => .ok (node, { l with cache := { idx := idx, node := node } })
  | .error e => .error e

/-- `LinkedList::get_node`: the `const_cast` wrapper around `_get_node`. -/
def get_node {T : Type} (h : Heap T) (l : LinkedList) (idx : Nat) :
    Except Fault (Option Nat × LinkedList) :=
  _get_node h l idx

/-- `SIZE_MAX`, the largest value of the (64-bit) `size_t`; `cache.idx++` on it gives `0`. -/
def SIZE_MAX : Nat := 18446744073709551615

/-- `LinkedList::LinkedList()`. -/
def default_list : LinkedList :=
  { length := 0, first := none, last := none, cache := { idx := 0, node := none } }

/-- `LinkedList::size`. -/
def size (l : LinkedList) : Nat := l.length

/-- `LinkedList::empty`. -/
def empty (l : LinkedList) : Bool := l.length == 0

/-- `LinkedList::push_back`. -/
def push_back {T : Type} (h : Heap T) (l : LinkedList) (element : T) :
    Except Fault (Heap T × LinkedList) :=
  let (h1, node) := h.alloc { value := element, next := none }
  if l.first = none then
    .ok (h1, { l with first := node, last := node,
                      cache := { l.cache with node := node },
                      length := l.length + 1 })
  else
    match h1.setNext l.last node with
    | .ok h2 => .ok (h2, { l with last := node, length := l.length + 1 })
    | .error e => .error e

/-- `LinkedList::push_front`. -/
def push_front {T : Type} (h : Heap T) (l : LinkedList) (element : T) :
    Except Fault (Heap T × LinkedList) :=
  let (h1, node) := h.alloc { value := element, next := l.first }
  .ok (h1, { l with first := node, length := l.length + 1,
                    cache := { l.cache with idx := (l.cache.idx + 1) % (SIZE_MAX + 1) } })

/-- `LinkedList::operator[] const` (the non-const overload forwards to it). -/
def index {T : Type} (h : Heap T) (l : LinkedList) (idx : Nat) :
    Except Fault (T × LinkedList) :=
  if idx < l.length then
    match get_node h l idx with
    | .ok (node, l1) =>
      match h.read node with
      | .ok n => .ok (n.value, l1)
      | .error e => .error e
    | .error e => .error e
  else .error .assertion

/-- `LinkedList::front`. -/
def front {T : Type} (h : Heap T) (l : LinkedList) : Except Fault T :=
  if l.length ≠ 0 then
    match h.read l.first with
    | .ok n => .ok n.value
    | .error e => .error e
  else .error .assertion

/-- `LinkedList::back`. -/
def back {T : Type} (h : Heap T) (l : LinkedList) : Except Fault T :=
  if l.length ≠ 0 then
    match h.read l.last with
    | .ok n => .ok n.value
    | .error e => .error e
  else .error .assertion

/-- `LinkedList::insert`. -/
def insert {T : Type} (h : Heap T) (l : LinkedList) (pos : Nat) (element : T) :
    Except Fault (Heap T × LinkedList) :=
  if pos < l.length then
    if pos = 0 then
      push_front h l element
    else if pos = l.length - 1 then
      let (h1, node) := h.alloc { value := element, next := none }
      match h1.setNext l.last node with
      | .ok h2 =>
        match h2.read l.last with
        | .ok ln => .ok (h2, { l with last := ln.next, length := l.length + 1 })
        | .error e => .error e
      | .error e => .error e
    else
      match get_node h l (pos - 1) with
      | .ok (node, l1) =>
        match h.read node with
        | .ok n =>
          let (h1, fresh) := h.alloc { value := element, next := n.next }
          match h1.setNext node fresh with
          | .ok h2 =>
            let l2 : LinkedList := { l1 with length := l1.length + 1 }
            if pos ≤ l2.cache.idx then
              .ok (h2, { l2 with cache :=
                { l2.cache with idx := (l2.cache.idx + 1) % (SIZE_MAX + 1) } })
            else .ok (h2, l2)
          | .error e => .error e
        | .error e => .error e
      | .error e => .error e
  else .error .assertion

/-- First half of `LinkedList::remove`: unlink the node at `idx`; returns the heap,
the list and the unlinked `node`. -/
def remove_unlink {T : Type} (h : Heap T) (l : LinkedList) (idx : Nat) :
    Except Fault (Heap T × LinkedList × Option Nat) :=
  if idx = 0 then
    match h.read l.first with
    | .ok n => .ok (h, { l with first := n.next }, l.first)
    | .error e => .error e
  else
    match get_node h l (idx - 1) with
    | .ok (prev, l1) =>
      match h.read prev with
      | .ok pn =>
        match h.read pn.next with
        | .ok nn =>
          match h.setNext prev nn.next with
          | .ok h1 => .ok (h1, l1, pn.next)
          | .error e => .error e
        | .error e => .error e
      | .error e => .error e
    | .error e => .error e

/-- The cache adjustment of `LinkedList::remove` (after `length--`, before `delete node`). -/
def remove_cache {T : Type} (h : Heap T) (l : LinkedList) (idx : Nat) :
    Except Fault LinkedList :=
  if idx = l.cache.idx then
    match h.read l.cache.node with
    | .ok cn =>
      if cn.next = none then .ok { l with cache := { idx := 0, node := l.first } }
      else .ok { l with cache := { l.cache with node := cn.next } }
    | .error e => .error e
  else if idx < l.cache.idx then
    .ok { l with cache := { l.cache with idx := l.cache.idx - 1 } }
  else .ok l

/-- `LinkedList::remove`. -/
def remove {T : Type} (h : Heap T) (l : LinkedList) (idx : Nat) :
    Except Fault (Heap T × LinkedList) :=
  if idx < l.length then
    match remove_unlink h l idx with
    | .ok (h1, l1, node) =>
      match remove_cache h1 { l1 with length := l1.length - 1 } idx with
      | .ok l3 =>
        match h1.delete node with
        | .ok h2 => .ok (h2, l3)
        | .error e => .error e
      | .error e => .error e
    | .error e => .error e
  else .error .assertion

/-- The loop of `LinkedList::destroy_nodes`.  Every round destroys one live node, so
`fuel` above the number of heap slots is never used up. -/
def destroy_loop {T : Type} : Nat → Heap T → Option Nat → Except Fault (Heap T)
  | _, h, none => .ok h
  | 0, _, some _ => .error .nontermination
  | fuel + 1, h, some a =>
    match h.read (some a) with
    | .ok garbage =>
      match h.delete (some a) with
      | .ok h1 => destroy_loop fuel h1 garbage.next
      | .error e => .error e
    | .error e => .error e

/-- `LinkedList::destroy_nodes`. -/
def destroy_nodes {T : Type} (h : Heap T) (l : LinkedList) : Except Fault (Heap T) :=
  destroy_loop (h.length + 1) h l.first

/-- `LinkedList::clear`. -/
def clear {T : Type} (h : Heap T) (l : LinkedList) : Except Fault (Heap T × LinkedList) :=
  match destroy_nodes h l with
  | .ok h1 => .ok (h1, { l with first := none, last := none, length := 0 })
  | .error e => .error e

/-- The loop of the copy constructor:
`for (; cur->next; cur = cur->next) cur->next = new Node{ *cur->next };`.
It returns the final `cur`.  A chain of live nodes ending in `nullptr` has at most as
many nodes as the heap has slots; `fuel` runs out only on a cyclic chain. -/
def copy_loop {T : Type} : Nat → Heap T → Option Nat → Except Fault (Heap T × Option Nat)
  | 0, _, _ => .error .nontermination
  | fuel + 1, h, cur =>
    match h.read cur with
    | .ok cn =>
      if cn.next = none then .ok (h, cur)
      else
        match h.read cn.next with
        | .ok sn =>
          let (h1, fresh) := h.alloc { value := sn.value, next := sn.next }
          match h1.setNext cur fresh with
          | .ok h2 => copy_loop fuel h2 fresh
          | .error e => .error e
        | .error e => .error e
    | .error e => .error e

/-- `LinkedList::LinkedList(const LinkedList& src)`.  Only `length` has a member
initialiser; `uninit` stands for the indeterminate contents the other members have
when the body starts. -/
def copy_construct {T : Type} (h : Heap T) (uninit : LinkedList) (src : LinkedList) :
    Except Fault (Heap T × LinkedList) :=
  let this : LinkedList := { uninit with length := src.length }
  if src.first = none then
    .ok (h, { this with first := none, last := none })
  else
    match h.read src.first with
    | .ok sn =>
      let (h1, fst) := h.alloc { value := sn.value, next := sn.next }
      match copy_loop (h.length + 1) h1 fst with
      | .ok (h2, cur) =>
        .ok (h2, { this with first := fst, last := cur, cache := { idx := 0, node := fst } })
      | .error e => .error e
    | .error e => .error e

/-- The loop of `LinkedList::operator==`; `ne` is `operator!=` of the element type. -/
def eq_loop {T : Type} (ne : T → T → Bool) (h : Heap T) :
    Nat → Option Nat → Option Nat → Except Fault Bool
  | _, none, _ => .ok true
  | 0, some _, _ => .error .nontermination
  | fuel + 1, some a, right =>
    match h.read (some a) with
    | .ok ln =>
      match h.read right with
      | .ok rn => if ne ln.value rn.value then .ok false else eq_loop ne h fuel ln.next rn.next
      | .error e => .error e
    | .error e => .error e

/-- `LinkedList::operator==`; `thisAddr` and `otherAddr` are the addresses of the two
list objects (`this == &other` compares them). -/
def op_eq {T : Type} (ne : T → T → Bool) (h : Heap T) (thisAddr otherAddr : Nat)
    (self other : LinkedList) : Except Fault Bool :=
  if thisAddr = otherAddr then .ok true
  else if self.length ≠ other.length then .ok false
  else eq_loop ne h (h.length + 1) self.first other.first

/-- `LinkedList::operator!=`. -/
def op_ne {T : Type} (ne : T → T → Bool) (h : Heap T) (thisAddr otherAddr : Nat)
    (self other : LinkedList) : Except Fault Bool :=
  match op_eq ne h thisAddr otherAddr self other with
  | .ok b => .ok (!b)
  | .error e => .error e

/-! ## Drivers: sequences of calls -/

/-- A call of one of the public operations. -/
inductive Op (T : Type) where
  | push_back (v : T)
  | push_front (v : T)
  | insert (pos : Nat) (v : T)
  | remove (idx : Nat)
  | clear
  | index (idx : Nat)
  deriving DecidableEq, Repr

/-- Perform one call. -/
def step {T : Type} (h : Heap T) (l : LinkedList) : Op T → Except Fault (Heap T × LinkedList)
  | .push_back v => push_back h l v
  | .push_front v => push_front h l v
  | .insert pos v => insert h l pos v
  | .remove idx => remove h l idx
  | .clear => clear h l
  | .index idx =>
    match index h l idx with
    | .ok (_, l1) => .ok (h, l1)
    | .error e => .error e

/-- Perform a sequence of calls, left to right. -/
def run {T : Type} (h : Heap T) (l : LinkedList) : List (Op T) → Except Fault (Heap T × LinkedList)
  | [] => .ok (h, l)
  | op :: ops =>
    match step h l op with
    | .ok (h1, l1) => run h1 l1 ops
    | .error e => .error e

/-- `push_back` every value of `vs`, in order. -/
def push_all {T : Type} (h : Heap T) (l : LinkedList) : List T → Except Fault (Heap T × LinkedList)
  | [] => .ok (h, l)
  | v :: vs =>
    match push_back h l v with
    | .ok (h1, l1) => push_all h1 l1 vs
    | .error e => .error e

/-- Indexed access at `i, i + 1, ..., i + k - 1`, in that order; returns the values read. -/
def index_seq {T : Type} (h : Heap T) (l : LinkedList) (i : Nat) :
    Nat → Except Fault (List T × LinkedList)
  | 0 => .ok ([], l)
  | k + 1 =>
    match index h l i with
    | .ok (v, l1) =>
      match index_seq h l1 (i + 1) k with
      | .ok (vs, l2) => .ok (v :: vs, l2)
      | .error e => .error e
    | .error e => .error e

/-! ## Representation predicates -/

/-- Address of the first node of `ns`, or `q` when `ns` is empty. -/
def hdOr {T : Type} (ns : List (Nat × T)) (q : Option Nat) : Option Nat :=
  match ns with
  | [] => q
  | (a, _) :: _ => some a

/-- Address of the first node of `ns` (`nullptr` when `ns` is empty). -/
def hd {T : Type} (ns : List (Nat × T)) : Option Nat := hdOr ns none

/-- Segment: every `(a, v)` of `ns` is a live node at address `a` holding `v` whose
link is its successor in `ns`; the link of the final node is `q`. -/
def Seg {T : Type} (h : Heap T) : List (Nat × T) → Option Nat → Prop
  | [], _ => True
  | (a, v) :: rest, q => h[a]? = some (some ⟨v, hdOr rest q⟩) ∧ Seg h rest q

/-- Chain: a segment whose final link is `nullptr`. -/
def Cells {T : Type} (h : Heap T) (ns : List (Nat × T)) : Prop := Seg h ns none

instance Seg.dec {T : Type} [DecidableEq T] (h : Heap T) :
    (ns : List (Nat × T)) → (q : Option Nat) → Decidable (Seg h ns q)
  | [], _ => isTrue trivial
  | (a, v) :: rest, q =>
    have : Decidable (Seg h rest q) := Seg.dec h rest q
    inferInstanceAs (Decidable (h[a]? = some (some ⟨v, hdOr rest q⟩) ∧ Seg h rest q))

instance Cells.dec {T : Type} [DecidableEq T] (h : Heap T) (ns : List (Nat × T)) :
    Decidable (Cells h ns) := Seg.dec h ns none

/-- The four data-model invariants, for the list `l` in heap `h` whose nodes, in
order, are `ns` (address and value of each):
1. `length` is the number of nodes reachable from `first` (`first_eq`, `cells`, `length_eq`);
2. `empty() ⇔ first is none ⇔ last is none` (follows from `first_eq`, `length_eq`, `last_eq`);
3. a non-none `cache.node` is the node at distance `cache.idx` from `first` (`cache_ok`);
4. `last` is the final node, its link is none, every other link is the successor (`cells`, `last_eq`). -/
structure Inv {T : Type} (h : Heap T) (l : LinkedList) (ns : List (Nat × T)) : Prop where
  first_eq : l.first = hd ns
  cells : Cells h ns
  length_eq : l.length = ns.length
  last_eq : l.last = (ns.getLast?).map Prod.fst
  cache_ok : l.cache.node = none ∨ (ns[l.cache.idx]?).map Prod.fst = l.cache.node

instance Inv.dec {T : Type} [DecidableEq T] (h : Heap T) (l : LinkedList) (ns : List (Nat × T)) :
    Decidable (Inv h l ns) :=
  if h1 : l.first = hd ns then
    if h2 : Cells h ns then
      if h3 : l.length = ns.length then
        if h4 : l.last = (ns.getLast?).map Prod.fst then
          if h5 : l.cache.node = none ∨ (ns[l.cache.idx]?).map Prod.fst = l.cache.node then
            isTrue ⟨h1, h2, h3, h4, h5⟩
          else isFalse (fun hi => h5 hi.cache_ok)
        else isFalse (fun hi => h4 hi.last_eq)
      else isFalse (fun hi => h3 hi.length_eq)
    else isFalse (fun hi => h2 hi.cells)
  else isFalse (fun hi => h1 hi.first_eq)


/-- Invariants 1 and 3 alone: the chain from `first`, its length, and the cache
(nothing about `last`). -/
structure Inv13 {T : Type} (h : Heap T) (l : LinkedList) (ns : List (Nat × T)) : Prop where
  first_eq : l.first = hd ns
  cells : Cells h ns
  length_eq : l.length = ns.length
  cache_ok : l.cache.node = none ∨ (ns[l.cache.idx]?).map Prod.fst = l.cache.node

/-- The values of a node sequence. -/
def values {T : Type} (ns : List (Nat × T)) : List T := ns.map Prod.snd

/-- The addresses of a node sequence. -/
def addrs {T : Type} (ns : List (Nat × T)) : List Nat := ns.map Prod.fst

/-- The cache of a list that has only been pushed to: `(0, first)`, and none only when empty. -/
def CacheAtHead {T : Type} (l : LinkedList) (ns : List (Nat × T)) : Prop :=
  l.cache.idx = 0 ∧ (l.cache.node = none → ns = [])

/-! ## Swap, move, iterators, instrumented lookup -/

/-- The friend function `swap(LinkedList& lhs, LinkedList& rhs)`: four `std::swap` calls,
one per data member, in source order.  It has no access to any node. -/
def swap (lhs rhs : LinkedList) : LinkedList × LinkedList :=
  let s1 : LinkedList × LinkedList :=
    ({ lhs with length := rhs.length }, { rhs with length := lhs.length })
  let s2 : LinkedList × LinkedList :=
    ({ s1.1 with first := s1.2.first }, { s1.2 with first := s1.1.first })
  let s3 : LinkedList × LinkedList :=
    ({ s2.1 with last := s2.2.last }, { s2.2 with last := s2.1.last })
  ({ s3.1 with cache := s3.2.cache }, { s3.2 with cache := s3.1.cache })

/-- `LinkedList::LinkedList(LinkedList&& src)`: only `first` and `last` have member
initialisers; `uninit` stands for the indeterminate contents of `length` and `cache`
when the body starts.  Returns the new list and the moved-from `src`. -/
def move_construct (uninit : LinkedList) (src : LinkedList) : LinkedList × LinkedList :=
  let this : LinkedList := { uninit with first := none, last := none }
  swap this src

/-- `LinkedList::operator=(LinkedList&& other)`: returns `*this` and `other`. -/
def move_assign (self other : LinkedList) : LinkedList × LinkedList :=
  swap self other

/-- `LinkedList::Iterator`: the single member `cur`. -/
structure Iterator where
  cur : Option Nat
  deriving DecidableEq, Repr

/-- `Iterator::operator==`. -/
def Iterator.eq (a b : Iterator) : Bool := decide (a.cur = b.cur)

/-- `Iterator::operator!=`. -/
def Iterator.ne (a b : Iterator) : Bool := !(Iterator.eq a b)

/-- A pointer that is null or refers to a destroyed node. -/
def Dead {T : Type} (h : Heap T) (p : Option Nat) : Prop :=
  match p with
  | none => True
  | some a => h[a]? = some none

/-- A pointer to an address at which no node has been allocated yet. -/
def Wild {T : Type} (h : Heap T) (p : Option Nat) : Prop :=
  match p with
  | none => False
  | some a => h.length ≤ a

/-- The states a client can obtain.  A list starts empty (`init`): the default
constructor sets the cache to `(0, nullptr)`; the copy constructor, given an empty source,
leaves in `cache` whatever its storage held, here any index and any pointer that does not
refer to a live node.  A list starts non-empty as the copy of an obtainable non-empty list
(`copy`).  Every call of `push_back`, `push_front`, `insert`, `remove`, `clear` or indexed
access that returns leads to an obtainable state (`step`); each call starts with
`cache.idx` below `SIZE_MAX`, so that `cache.idx++` does not wrap.  The other public
operations leave the members and the links as they are (a value written through a
returned reference gives the state the list has when that value is pushed in the first
place); move construction, move assignment and `swap` hand a state from one object to
another, and copy assignment hands over the state of a copy. -/
inductive Reach {T : Type} : Heap T → LinkedList → Prop where
  | init (h : Heap T) (c : Cache) :
      Dead h c.node ∨ Wild h c.node →
      Reach h { length := 0, first := none, last := none, cache := c }
  | copy {h h2 : Heap T} {src b : LinkedList} (uninit : LinkedList) :
      Reach h src → src.first ≠ none → copy_construct h uninit src = .ok (h2, b) → Reach h2 b
  | step {h h2 : Heap T} {l l2 : LinkedList} (op : Op T) :
      Reach h l → l.cache.idx < SIZE_MAX → step h l op = .ok (h2, l2) → Reach h2 l2

/-! ## Chains in the heap -/

theorem hdOr_append {T : Type} (xs ys : List (Nat × T)) (q : Option Nat) :
    hdOr (xs ++ ys) q = hdOr xs (hdOr ys q) := by
  cases xs with
  | nil => rfl
  | cons x r => rfl

theorem hd_drop {T : Type} (ns : List (Nat × T)) (i : Nat) :
    hd (ns.drop i) = (ns[i]?).map Prod.fst := by
  rw [← List.head?_drop]
  cases ns.drop i with
  | nil => rfl
  | cons x r => rfl

theorem hd_eq_head {T : Type} (ns : List (Nat × T)) : hd ns = (ns.head?).map Prod.fst := by
  cases ns with
  | nil => rfl
  | cons x r => rfl

theorem hd_eq_none {T : Type} {ns : List (Nat × T)} : hd ns = none ↔ ns = [] := by
  cases ns with
  | nil => simp [hd, hdOr]
  | cons x r => simp [hd, hdOr]

theorem Seg.append {T : Type} {h : Heap T} (xs ys : List (Nat × T)) (q : Option Nat) :
    Seg h (xs ++ ys) q ↔ Seg h xs (hdOr ys q) ∧ Seg h ys q := by
  induction xs with
  | nil => simp [Seg]
  | cons x r ih =>
    obtain ⟨a, v⟩ := x
    show (h[a]? = some (some ⟨v, hdOr (r ++ ys) q⟩) ∧ Seg h (r ++ ys) q) ↔
      (h[a]? = some (some ⟨v, hdOr r (hdOr ys q)⟩) ∧ Seg h r (hdOr ys q)) ∧ Seg h ys q
    rw [hdOr_append, ih]
    tauto

theorem Seg.lt_length {T : Type} {h : Heap T} {ns : List (Nat × T)} {q : Option Nat}
    (hs : Seg h ns q) : ∀ x ∈ ns, x.1 < h.length := by
  induction ns with
  | nil => simp
  | cons x r ih =>
    obtain ⟨a, v⟩ := x
    intro y hy
    rcases List.mem_cons.1 hy with rfl | hy
    · have h1 := hs.1
      by_contra hlt
      rw [List.getElem?_eq_none (by omega)] at h1
      exact absurd h1 (by simp)
    · exact ih hs.2 y hy

theorem Seg.heap_append {T : Type} {h : Heap T} {ns : List (Nat × T)} {q : Option Nat}
    (hs : Seg h ns q) (ex : Heap T) : Seg (h ++ ex) ns q := by
  induction ns with
  | nil => trivial
  | cons x r ih =>
    obtain ⟨a, v⟩ := x
    have hlt : a < h.length := hs.lt_length (a, v) (List.mem_cons_self _ _)
    exact ⟨by rw [List.getElem?_append_left hlt]; exact hs.1, ih hs.2⟩

theorem Seg.heap_set {T : Type} {h : Heap T} {ns : List (Nat × T)} {q : Option Nat}
    (hs : Seg h ns q) (a : Nat) (c : Option (Node T)) (hna : ∀ x ∈ ns, x.1 ≠ a) :
    Seg (h.set a c) ns q := by
  induction ns with
  | nil => trivial
  | cons x r ih =>
    obtain ⟨b, v⟩ := x
    have hb : b ≠ a := hna (b, v) (List.mem_cons_self _ _)
    refine ⟨?_, ih hs.2 (fun y hy => hna y (List.mem_cons_of_mem _ hy))⟩
    rw [List.getElem?_set_ne (Ne.symm hb)]
    exact hs.1

theorem Cells.drop {T : Type} {h : Heap T} {ns : List (Nat × T)} (hc : Cells h ns) (i : Nat) :
    Cells h (ns.drop i) := by
  have h1 : Cells h (ns.take i ++ ns.drop i) := by rw [List.take_append_drop]; exact hc
  exact ((Seg.append _ _ _).1 h1).2

theorem Cells.get {T : Type} {h : Heap T} {ns : List (Nat × T)} (hc : Cells h ns)
    {i : Nat} (hi : i < ns.length) :
    h[ns[i].1]? = some (some ⟨ns[i].2, hd (ns.drop (i + 1))⟩) := by
  have h1 := hc.drop i
  rw [List.drop_eq_getElem_cons hi] at h1
  exact h1.1

theorem Cells.read {T : Type} {h : Heap T} {ns : List (Nat × T)} (hc : Cells h ns)
    {i : Nat} (hi : i < ns.length) :
    h.read (some ns[i].1) = .ok ⟨ns[i].2, hd (ns.drop (i + 1))⟩ := by
  simp only [Heap.read, hc.get hi]

theorem hd_drop_of_lt {T : Type} {ns : List (Nat × T)} {i : Nat} (hi : i < ns.length) :
    hd (ns.drop i) = some ns[i].1 := by
  rw [List.drop_eq_getElem_cons hi]; rfl

theorem follow_cells {T : Type} {h : Heap T} {ns : List (Nat × T)} (hc : Cells h ns)
    (k i : Nat) (hik : i + k ≤ ns.length) :
    follow h k (hd (ns.drop i)) = .ok (hd (ns.drop (i + k))) := by
  induction k generalizing i with
  | zero => rfl
  | succ k ih =>
    have hi : i < ns.length := by omega
    rw [hd_drop_of_lt hi]
    simp only [follow, hc.read hi]
    rw [ih (i + 1) (by omega)]
    congr 3
    omega

/-- Two chains in one heap that start at the same node are the same chain. -/
theorem Cells.det {T : Type} {h : Heap T} {xs ys : List (Nat × T)} (hx : Cells h xs)
    (hy : Cells h ys) (hh : hd xs = hd ys) : xs = ys := by
  induction xs generalizing ys with
  | nil =>
    cases ys with
    | nil => rfl
    | cons y r => simp [hd, hdOr] at hh
  | cons x r ih =>
    obtain ⟨a, v⟩ := x
    cases ys with
    | nil => simp [hd, hdOr] at hh
    | cons y s =>
      obtain ⟨b, w⟩ := y
      have hab : a = b := by simpa [hd, hdOr] using hh
      subst hab
      have h1 := hx.1
      rw [hy.1] at h1
      simp only [Option.some.injEq, Node.mk.injEq] at h1
      have := ih hx.2 hy.2 h1.2.symm
      rw [this, h1.1]

/-- The nodes of a chain are pairwise distinct. -/
theorem Cells.nodup {T : Type} {h : Heap T} {ns : List (Nat × T)} (hc : Cells h ns) :
    (addrs ns).Nodup := by
  induction ns with
  | nil => exact List.nodup_nil
  | cons x r ih =>
    obtain ⟨a, v⟩ := x
    refine List.nodup_cons.2 ⟨?_, ih hc.2⟩
    intro hmem
    obtain ⟨i, hi, hia⟩ := List.getElem_of_mem hmem
    have hi2 : i < r.length := by simpa [addrs] using hi
    have hd1 : Cells h (r.drop i) := Cells.drop hc.2 i
    have hh : hd (r.drop i) = hd ((a, v) :: r) := by
      rw [hd_drop_of_lt hi2]
      simp only [hd, hdOr, Option.some.injEq]
      simpa [addrs] using hia
    have := Cells.det hd1 hc hh
    have hl := congrArg List.length this
    simp at hl
    omega

/-! ## Indexed access -/

theorem Inv.to13 {T : Type} {h : Heap T} {l : LinkedList} {ns : List (Nat × T)}
    (hinv : Inv h l ns) : Inv13 h l ns :=
  ⟨hinv.first_eq, hinv.cells, hinv.length_eq, hinv.cache_ok⟩

theorem Inv13.with_cache {T : Type} {h : Heap T} {l : LinkedList} {ns : List (Nat × T)}
    (hinv : Inv13 h l ns) {idx : Nat} (hidx : idx < ns.length) :
    Inv13 h { l with cache := { idx := idx, node := some ns[idx].1 } } ns :=
  { first_eq := hinv.first_eq
    cells := hinv.cells
    length_eq := hinv.length_eq
    cache_ok := Or.inr (by simp [List.getElem?_eq_getElem hidx]) }

theorem get_node_inv {T : Type} {h : Heap T} {l : LinkedList} {ns : List (Nat × T)}
    (hinv : Inv13 h l ns) {idx : Nat} (hidx : idx < ns.length)
    (hc : l.cache.node = none → idx < l.cache.idx) :
    _get_node h l idx =
      .ok (some ns[idx].1, { l with cache := { idx := idx, node := some ns[idx].1 } }) := by
  unfold _get_node
  by_cases hle : l.cache.idx ≤ idx
  · have hnode : l.cache.node = hd (ns.drop l.cache.idx) := by
      rcases hinv.cache_ok with h0 | h1
      · exact absurd (hc h0) (by omega)
      · rw [hd_drop]; exact h1.symm
    simp only [hle, if_true, hnode]
    rw [follow_cells hinv.cells _ _ (by omega)]
    have : l.cache.idx + (idx - l.cache.idx) = idx := by omega
    rw [this, hd_drop_of_lt hidx]
  · simp only [hle, if_false, hinv.first_eq]
    have := follow_cells hinv.cells idx 0 (by omega)
    simp only [List.drop_zero, Nat.zero_add, Nat.sub_zero] at this ⊢
    rw [this, hd_drop_of_lt hidx]

theorem index_inv {T : Type} {h : Heap T} {l : LinkedList} {ns : List (Nat × T)}
    (hinv : Inv13 h l ns) {i : Nat} (hi : i < ns.length)
    (hc : l.cache.node = none → i < l.cache.idx) :
    index h l i =
      .ok (ns[i].2, { l with cache := { idx := i, node := some ns[i].1 } }) := by
  unfold index get_node
  rw [if_pos (by rw [hinv.length_eq]; exact hi), get_node_inv hinv hi hc]
  simp only [hinv.cells.read hi]

theorem index_seq_inv {T : Type} {h : Heap T} {ns : List (Nat × T)} (k : Nat) :
    ∀ (l : LinkedList) (i : Nat), Inv13 h l ns → i + k ≤ ns.length →
      (0 < k → l.cache.node = none → i < l.cache.idx) →
      ∃ l2, index_seq h l i k = .ok (((ns.drop i).take k).map Prod.snd, l2) ∧ Inv13 h l2 ns ∧
        l2.length = l.length ∧ l2.first = l.first ∧ l2.last = l.last := by
  induction k with
  | zero =>
    intro l i hinv _ _
    exact ⟨l, by simp [index_seq], hinv, rfl, rfl, rfl⟩
  | succ k ih =>
    intro l i hinv hik hc
    have hi : i < ns.length := by omega
    obtain ⟨l2, h2, hinv2, e1, e2, e3⟩ :=
      ih { l with cache := { idx := i, node := some ns[i].1 } } (i + 1)
        (hinv.with_cache hi) (by omega) (by simp)
    refine ⟨l2, ?_, hinv2, e1, e2, e3⟩
    simp only [index_seq, index_inv hinv hi (hc (Nat.succ_pos k)), h2]
    rw [List.drop_eq_getElem_cons hi]
    rfl

/-! ## push_back -/

theorem Inv.last_of_concat {T : Type} {h : Heap T} {l : LinkedList} {init : List (Nat × T)}
    {a : Nat} {w : T} (hinv : Inv h l (init ++ [(a, w)])) : l.last = some a := by
  rw [hinv.last_eq]; simp

theorem Inv.first_ne_none {T : Type} {h : Heap T} {l : LinkedList} {ns : List (Nat × T)}
    (hinv : Inv h l ns) (hne : ns ≠ []) : l.first ≠ none := by
  rw [hinv.first_eq]
  intro h0
  exact hne (hd_eq_none.1 h0)

theorem Cells.concat_split {T : Type} {h : Heap T} {init : List (Nat × T)} {a : Nat} {w : T}
    (hc : Cells h (init ++ [(a, w)])) :
    Seg h init (some a) ∧ h[a]? = some (some ⟨w, none⟩) ∧ ∀ x ∈ init, x.1 ≠ a := by
  have h1 := (Seg.append init [(a, w)] none).1 hc
  refine ⟨h1.1, h1.2.1, ?_⟩
  intro x hx hxa
  have hnd := hc.nodup
  simp only [addrs, List.map_append, List.map_cons, List.map_nil] at hnd
  have := (List.nodup_append.1 hnd).2.2
  exact this (List.mem_map_of_mem Prod.fst hx) (by simp [hxa])

/-- What `push_back` does when `last` is the final node of the chain; the cache plays
no part. -/
theorem push_back_chain {T : Type} {h : Heap T} {l : LinkedList} {ns : List (Nat × T)}
    (hfirst : l.first = hd ns) (hcells : Cells h ns) (hlength : l.length = ns.length)
    (hlast : l.last = (ns.getLast?).map Prod.fst) (v : T) :
    ∃ h2 l2, push_back h l v = .ok (h2, l2) ∧
      l2.first = hd (ns ++ [(h.length, v)]) ∧ Cells h2 (ns ++ [(h.length, v)]) ∧
      l2.length = ns.length + 1 ∧ l2.last = some h.length ∧
      l2.cache = (if ns.length = 0 then { idx := l.cache.idx, node := some h.length } else l.cache) ∧
      h2.length = h.length + 1 ∧
      (∀ a, a < h.length → l.last ≠ some a → h2[a]? = h[a]?) := by
  rcases List.eq_nil_or_concat' ns with rfl | ⟨init, x, rfl⟩
  · have hf : l.first = none := hfirst
    refine ⟨h ++ [some (⟨v, none⟩ : Node T)], _, by simp only [push_back, Heap.alloc, hf, if_true]; rfl,
      rfl, ?_, ?_, rfl, rfl, by simp, ?_⟩
    · exact ⟨by simp [hdOr], trivial⟩
    · simp [hlength]
    · intro a ha _
      rw [List.getElem?_append_left ha]
  · obtain ⟨a, w⟩ := x
    have hf : l.first ≠ none := by
      rw [hfirst]
      intro h0
      exact absurd (hd_eq_none.1 h0) (by simp)
    have hl : l.last = some a := by rw [hlast]; simp
    obtain ⟨hseg, hcell, hna⟩ := hcells.concat_split
    have halt : a < h.length := by
      by_contra hlt
      rw [List.getElem?_eq_none (by omega)] at hcell
      exact absurd hcell (by simp)
    have hcell1 : (h ++ [some (⟨v, none⟩ : Node T)])[a]? = some (some ⟨w, none⟩) := by
      rw [List.getElem?_append_left halt]; exact hcell
    refine ⟨(h ++ [some (⟨v, none⟩ : Node T)]).set a (some (⟨w, some h.length⟩ : Node T)),
      { l with last := some h.length, length := l.length + 1 }, ?_, ?_, ?_, ?_, rfl, ?_,
      by simp, ?_⟩
    · simp only [push_back, Heap.alloc, hf, if_false, hl, Heap.setNext, hcell1]
    · show l.first = _
      rw [hfirst]
      simp only [hd, hdOr_append]
      rfl
    · have e : init ++ [(a, w)] ++ [(h.length, v)] = init ++ [(a, w), (h.length, v)] := by simp
      rw [e]
      refine (Seg.append init _ none).2 ⟨?_, ?_, ?_, trivial⟩
      · exact (hseg.heap_append _).heap_set a _ hna
      · rw [List.getElem?_set_self (by simp; omega)]
        rfl
      · rw [List.getElem?_set_ne (by omega)]
        simp [hdOr]
    · simp [hlength]
    · simp
    · intro b hb hne
      rw [hl] at hne
      have : a ≠ b := fun e => hne (by rw [e])
      rw [List.getElem?_set_ne this, List.getElem?_append_left hb]

theorem push_back_spec {T : Type} {h : Heap T} {l : LinkedList} {ns : List (Nat × T)}
    (hinv : Inv h l ns) (v : T) :
    ∃ h2 l2, push_back h l v = .ok (h2, l2) ∧
      l2.first = hd (ns ++ [(h.length, v)]) ∧ Cells h2 (ns ++ [(h.length, v)]) ∧
      l2.length = ns.length + 1 ∧ l2.last = some h.length ∧
      l2.cache = (if ns.length = 0 then { idx := l.cache.idx, node := some h.length } else l.cache) ∧
      h2.length = h.length + 1 ∧
      (∀ a, a < h.length → l.last ≠ some a → h2[a]? = h[a]?) :=
  push_back_chain hinv.first_eq hinv.cells hinv.length_eq hinv.last_eq v

theorem push_back_inv {T : Type} {h : Heap T} {l : LinkedList} {ns : List (Nat × T)}
    (hinv : Inv h l ns) (hc : ns = [] → l.cache.idx = 0) (v : T) :
    ∃ h2 l2, push_back h l v = .ok (h2, l2) ∧ Inv h2 l2 (ns ++ [(h.length, v)]) ∧
      l2.cache = (if ns.length = 0 then { idx := 0, node := some h.length } else l.cache) ∧
      h2.length = h.length + 1 ∧
      (∀ a, a < h.length → l.last ≠ some a → h2[a]? = h[a]?) := by
  obtain ⟨h2, l2, e, hf, hcells, hlen, hlast, hcache, hhl, hfr⟩ := push_back_spec hinv v
  refine ⟨h2, l2, e, ⟨hf, hcells, by simp [hlen], by simp [hlast], ?_⟩, ?_, hhl, hfr⟩
  · rw [hcache]
    by_cases hn : ns = []
    · subst hn
      simp [hc rfl]
    · have hn2 : ns.length ≠ 0 := fun e => hn (List.length_eq_zero.1 e)
      simp only [hn2, if_false]
      rcases hinv.cache_ok with h0 | h1
      · exact Or.inl h0
      · by_cases hlt : l.cache.idx < ns.length
        · right
          rw [← h1, List.getElem?_append_left hlt]
        · left
          rw [List.getElem?_eq_none (by omega)] at h1
          exact h1.symm
  · rw [hcache]
    by_cases hn : ns = []
    · simp [hn, hc hn]
    · have hn2 : ns.length ≠ 0 := fun e => hn (List.length_eq_zero.1 e)
      simp [hn2]

theorem Inv.last_mem {T : Type} {h : Heap T} {l : LinkedList} {ns : List (Nat × T)}
    (hinv : Inv h l ns) {a : Nat} (hl : l.last = some a) : a ∈ addrs ns := by
  rw [hinv.last_eq] at hl
  rcases hg : ns.getLast? with _ | x
  · rw [hg] at hl; simp at hl
  · rw [hg] at hl
    have hx : x.1 = a := by simpa using hl
    rw [← hx]
    exact List.mem_map_of_mem Prod.fst (List.mem_of_getLast?_eq_some hg)

theorem push_all_spec {T : Type} (vs : List T) :
    ∀ (h : Heap T) (l : LinkedList) (ns : List (Nat × T)), Inv h l ns → CacheAtHead l ns →
      ∃ h2 l2 ms, push_all h l vs = .ok (h2, l2) ∧ Inv h2 l2 (ns ++ ms) ∧ values ms = vs ∧
        CacheAtHead l2 (ns ++ ms) ∧ h.length ≤ h2.length ∧ (∀ x ∈ ms, h.length ≤ x.1) ∧
        (∀ a, a < h.length → a ∉ addrs ns → h2[a]? = h[a]?) := by
  induction vs with
  | nil =>
    intro h l ns hinv hc
    exact ⟨h, l, [], rfl, by simpa using hinv, rfl, by simpa using hc, le_refl _, by simp,
      fun _ _ _ => rfl⟩
  | cons v vs ih =>
    intro h l ns hinv hc
    obtain ⟨h1, l1, e1, hinv1, hcache1, hlen1, hfr1⟩ := push_back_inv hinv (fun _ => hc.1) v
    have hc1 : CacheAtHead l1 (ns ++ [(h.length, v)]) := by
      rw [CacheAtHead, hcache1]
      by_cases hn : ns.length = 0
      · simp [hn]
      · simp only [hn, if_false]
        exact ⟨hc.1, fun h0 => absurd (hc.2 h0) (fun e => hn (by simp [e]))⟩
    obtain ⟨h2, l2, ms, e2, hinv2, hv2, hc2, hlen2, hge2, hfr2⟩ := ih h1 l1 _ hinv1 hc1
    refine ⟨h2, l2, (h.length, v) :: ms, ?_, by simpa using hinv2, by simp [values, ← hv2],
      by simpa using hc2, by omega, ?_, ?_⟩
    · simp only [push_all, e1, e2]
    · intro x hx
      rcases List.mem_cons.1 hx with rfl | hx
      · exact le_refl _
      · have := hge2 x hx
        omega
    · intro a ha hna
      have hne : l.last ≠ some a := fun hl => hna (hinv.last_mem hl)
      rw [hfr2 a (by omega) ?_, hfr1 a ha hne]
      simp only [addrs, List.map_append, List.map_cons, List.map_nil, List.mem_append,
        List.mem_singleton, not_or]
      exact ⟨hna, by omega⟩

theorem Inv.default {T : Type} (h : Heap T) : Inv h default_list ([] : List (Nat × T)) :=
  ⟨rfl, trivial, rfl, rfl, Or.inl rfl⟩

theorem front_inv {T : Type} {h : Heap T} {l : LinkedList} {ns : List (Nat × T)}
    (hinv : Inv h l ns) {v : T} (hv : (values ns).head? = some v) : front h l = .ok v := by
  cases ns with
  | nil => simp [values] at hv
  | cons x r =>
    obtain ⟨a, w⟩ := x
    have hw : w = v := by simpa [values] using hv
    subst hw
    have hf : l.first = some a := hinv.first_eq
    have hl : l.length ≠ 0 := by rw [hinv.length_eq]; simp
    simp only [front, hl, ne_eq, not_false_eq_true, if_true, hf, Heap.read, hinv.cells.1]

theorem back_inv {T : Type} {h : Heap T} {l : LinkedList} {ns : List (Nat × T)}
    (hinv : Inv h l ns) {v : T} (hv : (values ns).getLast? = some v) : back h l = .ok v := by
  rcases List.eq_nil_or_concat' ns with rfl | ⟨init, x, rfl⟩
  · simp [values] at hv
  · obtain ⟨a, w⟩ := x
    have hw : w = v := by simpa [values] using hv
    subst hw
    have hl : l.length ≠ 0 := by rw [hinv.length_eq]; simp
    simp only [back, hl, ne_eq, not_false_eq_true, if_true, hinv.last_of_concat, Heap.read,
      hinv.cells.concat_split.2.1]

/-! ## remove -/

theorem Cells.addr_inj {T : Type} {h : Heap T} {ns : List (Nat × T)} (hc : Cells h ns)
    {i j : Nat} (hi : i < ns.length) (hj : j < ns.length) (e : ns[i].1 = ns[j].1) : i = j := by
  have hnd := hc.nodup
  have hi2 : i < (addrs ns).length := by simpa [addrs] using hi
  have hj2 : j < (addrs ns).length := by simpa [addrs] using hj
  have : (addrs ns)[i] = (addrs ns)[j] := by simpa [addrs] using e
  exact (hnd.getElem_inj_iff).1 this

theorem Cells.not_mem_drop {T : Type} {h : Heap T} {ns : List (Nat × T)} (hc : Cells h ns)
    {j k : Nat} (hjk : k < j) (hk : k < ns.length) : ∀ x ∈ ns.drop j, x.1 ≠ ns[k].1 := by
  intro x hx e
  obtain ⟨i, hi, rfl⟩ := List.mem_drop_iff_getElem.1 hx
  have := hc.addr_inj (by omega) hk e
  omega

theorem hd_eraseIdx_succ {T : Type} (ns : List (Nat × T)) (j : Nat) :
    hd (ns.eraseIdx (j + 1)) = hd ns := by
  cases ns with
  | nil => rfl
  | cons x r => rfl

theorem Cells.length_le {T : Type} {h : Heap T} {ns : List (Nat × T)} (hc : Cells h ns) :
    ns.length ≤ h.length := by
  have hsub : addrs ns ⊆ List.range h.length := by
    intro a ha
    obtain ⟨x, hx, rfl⟩ := List.mem_map.1 ha
    exact List.mem_range.2 (hc.lt_length x hx)
  have := (List.subperm_of_subset hc.nodup hsub).length_le
  simpa [addrs] using this

theorem Seg.heap_agree {T : Type} {h h2 : Heap T} {ns : List (Nat × T)} {q : Option Nat}
    (hs : Seg h ns q) (hag : ∀ a, a < h.length → h2[a]? = h[a]?) : Seg h2 ns q := by
  induction ns with
  | nil => trivial
  | cons x r ih =>
    obtain ⟨a, v⟩ := x
    have hlt : a < h.length := hs.lt_length (a, v) (List.mem_cons_self _ _)
    exact ⟨by rw [hag a hlt]; exact hs.1, ih hs.2⟩

/-! ## insert -/

theorem destroy_loop_spec {T : Type} (ns : List (Nat × T)) :
    ∀ (h : Heap T) (fuel : Nat), Cells h ns → ns.length ≤ fuel →
      ∃ h2, destroy_loop fuel h (hd ns) = .ok h2 ∧ h2.length = h.length ∧
        (∀ x ∈ ns, h2[x.1]? = some none) ∧ (∀ a, a ∉ addrs ns → h2[a]? = h[a]?) := by
  induction ns with
  | nil =>
    intro h fuel _ _
    refine ⟨h, ?_, rfl, by simp, fun _ _ => rfl⟩
    cases fuel <;> rfl
  | cons x r ih =>
    intro h fuel hc hfuel
    obtain ⟨a, v⟩ := x
    obtain ⟨f, rfl⟩ : ∃ f, fuel = f + 1 := ⟨fuel - 1, by simp at hfuel; omega⟩
    have hna : ∀ y ∈ r, y.1 ≠ a := by
      have := hc.not_mem_drop (j := 1) (k := 0) (by omega) (by simp)
      simpa using this
    have halt : a < h.length := hc.lt_length (a, v) (List.mem_cons_self _ _)
    obtain ⟨h2, e2, hl2, hd2, hfr2⟩ := ih (h.set a none) f (Seg.heap_set hc.2 a none hna)
      (by simp at hfuel; omega)
    refine ⟨h2, ?_, by simpa using hl2, ?_, ?_⟩
    · show destroy_loop (f + 1) h (some a) = _
      simp only [destroy_loop, Heap.read, Heap.delete, hc.1]
      exact e2
    · intro y hy
      rcases List.mem_cons.1 hy with rfl | hy
      · rw [hfr2 a (fun hm => by
          obtain ⟨z, hz, hza⟩ := List.mem_map.1 hm
          exact hna z hz hza)]
        rw [List.getElem?_set_self halt]
      · exact hd2 y hy
    · intro b hb
      have hb1 : b ≠ a := fun e => hb (by simp [addrs, e])
      have hb2 : b ∉ addrs r := fun hm => hb (by
        simp only [addrs, List.map_cons, List.mem_cons]
        exact Or.inr hm)
      rw [hfr2 b hb2, List.getElem?_set_ne (Ne.symm hb1)]

/-- On a state satisfying the invariants `clear()` destroys every node of the chain and
resets `first`, `last` and `length`; the cache member is left exactly as it was. -/
theorem clear_spec {T : Type} {h : Heap T} {l : LinkedList} {ns : List (Nat × T)}
    (hinv : Inv h l ns) :
    ∃ h2, clear h l =
        .ok (h2, { length := 0, first := none, last := none, cache := l.cache }) ∧
      h2.length = h.length ∧ (∀ x ∈ ns, h2[x.1]? = some none) ∧
      (∀ a, a ∉ addrs ns → h2[a]? = h[a]?) := by
  obtain ⟨h2, e, hl, hd2, hfr⟩ := destroy_loop_spec ns h (h.length + 1) hinv.cells
    (by have := hinv.cells.length_le; omega)
  refine ⟨h2, ?_, hl, hd2, hfr⟩
  simp only [clear, destroy_nodes, hinv.first_eq, e]

/-! ## copy construction -/

theorem copy_loop_spec {T : Type} (rest : List (Nat × T)) :
    ∀ (h : Heap T) (c : Nat) (v : T) (fuel : Nat),
      h[c]? = some (some ⟨v, hd rest⟩) → Cells h rest → (∀ x ∈ rest, x.1 ≠ c) →
      rest.length < fuel →
      ∃ h2 cs z, copy_loop fuel h (some c) = .ok (h2, some z) ∧
        Cells h2 ((c, v) :: cs) ∧ values cs = values rest ∧
        (∀ x ∈ cs, h.length ≤ x.1) ∧
        (((c, v) :: cs).getLast?).map Prod.fst = some z ∧
        h.length ≤ h2.length ∧
        (∀ a, a < h.length → a ≠ c → h2[a]? = h[a]?) := by
  induction rest with
  | nil =>
    intro h c v fuel hcell _ _ hfuel
    obtain ⟨f, rfl⟩ : ∃ f, fuel = f + 1 := ⟨fuel - 1, by omega⟩
    refine ⟨h, [], c, ?_, ⟨hcell, trivial⟩, rfl, by simp, rfl, le_refl _, fun _ _ _ => rfl⟩
    simp only [copy_loop, Heap.read, hcell]
    rfl
  | cons x r ih =>
    intro h c v fuel hcell hcells hne hfuel
    obtain ⟨s, w⟩ := x
    obtain ⟨f, rfl⟩ : ∃ f, fuel = f + 1 := ⟨fuel - 1, by omega⟩
    have hclt : c < h.length := by
      by_contra hlt
      rw [List.getElem?_eq_none (by omega)] at hcell
      exact absurd hcell (by simp)
    have hslt : ∀ y ∈ (s, w) :: r, y.1 < h.length := hcells.lt_length
    have hcs : c ≠ s := fun e => hne (s, w) (List.mem_cons_self _ _) e.symm
    have hcell1 : (h ++ [some (⟨w, hd r⟩ : Node T)])[c]? = some (some ⟨v, some s⟩) := by
      rw [List.getElem?_append_left hclt]; exact hcell
    obtain ⟨h3, cs, z, e3, hc3, hv3, hge3, hz3, hl3, hfr3⟩ :=
      ih ((h ++ [some (⟨w, hd r⟩ : Node T)]).set c (some ⟨v, some h.length⟩)) h.length w f
        (by
          rw [List.getElem?_set_ne (by omega)]
          simp)
        (((hcells.2).heap_append _).heap_set _ _
          (fun y hy => hne y (List.mem_cons_of_mem _ hy)))
        (fun y hy => by
          have := hslt y (List.mem_cons_of_mem _ hy)
          omega)
        (by simp at hfuel; omega)
    simp only [List.length_set, List.length_append, List.length_cons, List.length_nil]
      at hge3 hl3 hfr3
    refine ⟨h3, (h.length, w) :: cs, z, ?_, ⟨?_, hc3⟩, ?_, ?_, ?_, by omega, ?_⟩
    · have hs : h[s]? = some (some ⟨w, hd r⟩) := hcells.1
      have hcell0 : h[c]? = some (some ⟨v, some s⟩) := hcell
      simp only [copy_loop, Heap.read, hcell0, Heap.alloc, Heap.setNext, hcell1, hs]
      simpa using e3
    · rw [hfr3 c (by omega) (by omega), List.getElem?_set_self (by simp; omega)]
      rfl
    · simp [values] at hv3 ⊢
      exact hv3
    · intro y hy
      rcases List.mem_cons.1 hy with rfl | hy
      · exact le_refl _
      · have := hge3 y hy
        omega
    · rw [List.getLast?_cons_cons]
      exact hz3
    · intro a ha hac
      rw [hfr3 a (by omega) (by omega), List.getElem?_set_ne (Ne.symm hac),
        List.getElem?_append_left ha]

/-- Copy construction from a list with a non-empty chain of `length` nodes: the copy
holds the same values in the same order in fresh nodes, satisfies the invariants with
`cache == (0, head)`, and no cell of the old heap is changed. -/
theorem copy_construct_chain {T : Type} {h : Heap T} {src : LinkedList}
    {ns : List (Nat × T)} (hfirst : src.first = hd ns) (hcells : Cells h ns)
    (hlength : src.length = ns.length) (hne : ns ≠ []) (uninit : LinkedList) :
    ∃ h2 b ms, copy_construct h uninit src = .ok (h2, b) ∧ Inv h2 b ms ∧
      values ms = values ns ∧ size b = size src ∧ b.cache = ⟨0, b.first⟩ ∧
      (∀ x ∈ ms, h.length ≤ x.1) ∧ (∀ a, a < h.length → h2[a]? = h[a]?) := by
  cases ns with
  | nil => exact absurd rfl hne
  | cons x r =>
    obtain ⟨s, w⟩ := x
    have hf : src.first = some s := hfirst
    have hslt : ∀ y ∈ (s, w) :: r, y.1 < h.length := hcells.lt_length
    have hlen := hcells.length_le
    obtain ⟨h2, cs, z, e, hc, hv, hge, hz, hl, hfr⟩ :=
      copy_loop_spec r (h ++ [some (⟨w, hd r⟩ : Node T)]) h.length w (h.length + 1)
        (by simp) ((hcells.2).heap_append _)
        (fun y hy => by
          have := hslt y (List.mem_cons_of_mem _ hy)
          omega)
        (by simp at hlen; omega)
    simp only [List.length_append, List.length_cons, List.length_nil] at hge hl hfr
    have hagree : ∀ a, a < h.length → h2[a]? = h[a]? := by
      intro a ha
      rw [hfr a (by omega) (by omega), List.getElem?_append_left ha]
    refine ⟨h2,
      { length := src.length, first := some h.length, last := some z,
        cache := { idx := 0, node := some h.length } },
      (h.length, w) :: cs, ?_, ?_, ?_, rfl, rfl, ?_, hagree⟩
    · have hrs : h.read (some s) = .ok ⟨w, hd r⟩ := by
        simp only [Heap.read, hcells.1]; rfl
      simp only [copy_construct, hf, hrs, Heap.alloc, e]
      simp
    · refine ⟨rfl, hc, ?_, hz.symm, Or.inr (by simp)⟩
      have h1 := congrArg List.length hv
      simp only [values, List.length_map] at h1
      simp [hlength, h1]
    · simp only [values, List.map_cons] at hv ⊢
      rw [hv]
    · intro y hy
      rcases List.mem_cons.1 hy with rfl | hy
      · exact le_refl _
      · have := hge y hy
        omega

/-- Copy construction from a non-empty list satisfying the invariants: the copy holds
the same values in the same order in fresh nodes, satisfies the invariants with
`cache == (0, head)`, and no cell of the old heap is changed. -/
theorem copy_construct_spec {T : Type} {h : Heap T} {src : LinkedList}
    {ns : List (Nat × T)} (hinv : Inv h src ns) (hne : ns ≠ []) (uninit : LinkedList) :
    ∃ h2 b ms, copy_construct h uninit src = .ok (h2, b) ∧ Inv h2 b ms ∧
      values ms = values ns ∧ size b = size src ∧ b.cache = ⟨0, b.first⟩ ∧
      (∀ x ∈ ms, h.length ≤ x.1) ∧ (∀ a, a < h.length → h2[a]? = h[a]?) ∧
      Inv h2 src ns := by
  obtain ⟨h2, b, ms, e, hb, hv, hs, hc, hge, hagree⟩ :=
    copy_construct_chain hinv.first_eq hinv.cells hinv.length_eq hne uninit
  exact ⟨h2, b, ms, e, hb, hv, hs, hc, hge, hagree, hinv.first_eq,
    hinv.cells.heap_agree hagree, hinv.length_eq, hinv.last_eq, hinv.cache_ok⟩

/-! ## push_front -/

theorem eq_loop_none {T : Type} (ne : T → T → Bool) (h : Heap T) (fuel : Nat)
    (right : Option Nat) : eq_loop ne h fuel none right = .ok true := by
  cases fuel <;> rfl

theorem eq_loop_spec {T : Type} (ne : T → T → Bool) {h : Heap T} (xs : List (Nat × T)) :
    ∀ (ys : List (Nat × T)) (fuel : Nat), Cells h xs → Cells h ys → xs.length = ys.length →
      xs.length ≤ fuel →
      ∃ r, eq_loop ne h fuel (hd xs) (hd ys) = .ok r ∧
        (r = true ↔ List.Forall₂ (fun x y => ne x.2 y.2 = false) xs ys) := by
  induction xs with
  | nil =>
    intro ys fuel _ _ hlen _
    have : ys = [] := List.length_eq_zero.1 hlen.symm
    subst this
    exact ⟨true, eq_loop_none ne h fuel _, by simp⟩
  | cons x r ih =>
    intro ys fuel hx hy hlen hfuel
    obtain ⟨a, v⟩ := x
    cases ys with
    | nil => simp at hlen
    | cons y s =>
      obtain ⟨b, w⟩ := y
      obtain ⟨f, rfl⟩ : ∃ f, fuel = f + 1 := ⟨fuel - 1, by simp at hfuel; omega⟩
      have hra : h.read (some a) = .ok ⟨v, hd r⟩ := by simp only [Heap.read, hx.1]; rfl
      have hrb : h.read (some b) = .ok ⟨w, hd s⟩ := by simp only [Heap.read, hy.1]; rfl
      obtain ⟨r0, e0, hr0⟩ := ih s f hx.2 hy.2 (by simpa using hlen) (by simp at hfuel; omega)
      by_cases hne : ne v w = true
      · refine ⟨false, ?_, ?_⟩
        · show eq_loop ne h (f + 1) (some a) (some b) = _
          simp only [eq_loop, hra, hrb, hne, if_true]
        · simp [List.forall₂_cons, hne]
      · refine ⟨r0, ?_, ?_⟩
        · show eq_loop ne h (f + 1) (some a) (some b) = _
          simp only [eq_loop, hra, hrb, hne, if_false]
          exact e0
        · rw [hr0, List.forall₂_cons]
          simp [hne]

theorem forall₂_iff_index {T : Type} (ne : T → T → Bool) (xs ys : List (Nat × T)) :
    List.Forall₂ (fun x y => ne x.2 y.2 = false) xs ys ↔
      xs.length = ys.length ∧
        ∀ (i : Nat) (hi : i < xs.length) (hj : i < ys.length), ne xs[i].2 ys[i].2 = false := by
  rw [List.forall₂_iff_get]
  simp only [List.get_eq_getElem]

theorem op_eq_spec {T : Type} (ne : T → T → Bool) {h : Heap T} {a b : LinkedList}
    {xs ys : List (Nat × T)} (ha : Inv h a xs) (hb : Inv h b ys) (pa pb : Nat)
    (hid : pa = pb → a = b) (hirr : ∀ x, ne x x = false) :
    ∃ r, op_eq ne h pa pb a b = .ok r ∧
      (r = true ↔ List.Forall₂ (fun x y => ne x.2 y.2 = false) xs ys) := by
  unfold op_eq
  by_cases hp : pa = pb
  · have hab := hid hp
    subst hab
    have hxy : xs = ys := ha.cells.det hb.cells (by rw [← ha.first_eq, ← hb.first_eq])
    subst hxy
    refine ⟨true, by simp [hp], ?_⟩
    simp only [true_iff]
    exact (forall₂_iff_index ne xs xs).2 ⟨rfl, fun i hi _ => hirr _⟩
  · simp only [hp, if_false]
    by_cases hl : a.length = b.length
    · simp only [hl, ne_eq, not_true_eq_false, if_false]
      rw [ha.first_eq, hb.first_eq]
      exact eq_loop_spec ne xs ys (h.length + 1) ha.cells hb.cells
        (by rw [← ha.length_eq, ← hb.length_eq]; exact hl)
        (by have := ha.cells.length_le; omega)
    · refine ⟨false, by simp [hl], ?_⟩
      simp only [Bool.false_eq_true, false_iff]
      intro hf
      exact hl (by rw [ha.length_eq, hb.length_eq]; exact hf.length_eq)

theorem push_all_default_inv {T : Type} (h : Heap T) (vs : List T) :
    ∃ h2 l2 ms, push_all h default_list vs = .ok (h2, l2) ∧ Inv h2 l2 ms ∧ values ms = vs ∧
      (∀ a, a < h.length → h2[a]? = h[a]?) := by
  obtain ⟨h2, l2, ms, e, hinv, hv, -, -, -, hfr⟩ :=
    push_all_spec vs h default_list [] (Inv.default h) ⟨rfl, fun _ => rfl⟩
  exact ⟨h2, l2, ms, e, by simpa using hinv, hv, fun a ha => hfr a ha (by simp [addrs])⟩

/-! ## The claims -/

/-- C1: starting from a default-constructed list (in any heap), pushing `vs` with
`push_back` in order succeeds; afterwards `size()` is the number of pushes, indexed
access at `0, 1, ..., n - 1` in increasing order returns exactly `vs`, indexed access at
any single `i < n` returns `vs[i]`, and for a non-empty `vs` `front()` returns the first
and `back()` the last pushed value. -/
theorem C1_push_back_sequence {T : Type} (h : Heap T) (vs : List T) :
    ∃ h2 l2, push_all h default_list vs = .ok (h2, l2) ∧
      size l2 = vs.length ∧
      (∃ l3, index_seq h2 l2 0 vs.length = .ok (vs, l3)) ∧
      (∀ (i : Nat) (hi : i < vs.length), ∃ l3, index h2 l2 i = .ok (vs[i], l3)) ∧
      (∀ v, vs.head? = some v → front h2 l2 = .ok v) ∧
      (∀ v, vs.getLast? = some v → back h2 l2 = .ok v) := by
  obtain ⟨h2, l2, ms, e, hinv, hv, hc, -, -, -⟩ :=
    push_all_spec vs h default_list [] (Inv.default h) ⟨rfl, fun _ => rfl⟩
  simp only [List.nil_append] at hinv hc
  have hlen : ms.length = vs.length := by rw [← hv]; simp [values]
  have hcn : ∀ i, i < ms.length → l2.cache.node = none → i < l2.cache.idx := by
    intro i hi h0
    rw [hc.2 h0] at hi
    simp at hi
  refine ⟨h2, l2, e, ?_, ?_, ?_, ?_, ?_⟩
  · rw [size, hinv.length_eq, hlen]
  · obtain ⟨l3, e3, -⟩ := index_seq_inv ms.length l2 0 hinv.to13 (by omega)
      (fun hpos => hcn 0 hpos)
    refine ⟨l3, ?_⟩
    rw [← hlen, e3, ← hv]
    simp [values]
  · intro i hi
    have hi2 : i < ms.length := by omega
    refine ⟨{ l2 with cache := { idx := i, node := some ms[i].1 } }, ?_⟩
    rw [index_inv hinv.to13 hi2 (hcn i hi2)]
    simp [← hv, values]
  · intro v hv2
    exact front_inv hinv (by rw [hv]; exact hv2)
  · intro v hv2
    exact back_inv hinv (by rw [hv]; exact hv2)

/-- C2 (code defect): on the list `[1, 2]` built by two `push_back` calls, which
satisfies the invariants, `insert(1, 9)` takes the `pos == length - 1` branch and
appends after the tail: the result is `[1, 2, 9]`, not `take 1 ++ [9] ++ drop 1 = [1, 9, 2]`. -/
theorem C2_insert_at_last_index_appends :
    ∃ h l h2 l2,
      run ([] : Heap Nat) default_list [.push_back 1, .push_back 2] = .ok (h, l) ∧
      Inv h l [(0, 1), (1, 2)] ∧
      insert h l 1 9 = .ok (h2, l2) ∧
      Inv h2 l2 [(0, 1), (1, 2), (2, 9)] ∧
      values [(0, 1), (1, 2), (2, 9)] = [1, 2, 9] ∧
      [1, 2, 9] ≠ List.take 1 (values [(0, 1), (1, 2)]) ++ [9] ++
        List.drop 1 (values [(0, 1), (1, 2)]) :=
  ⟨_, _, _, _, rfl, by decide, rfl, by decide, rfl, by decide⟩

/-- C4 (code defect): two reachable states on which `push_back` follows an invalid
`last`.  After `push_front(1)` on a default list `last` is still none and
`push_back(2)` dereferences it; after `push_back(1); push_back(2); remove(1)` `last`
still refers to the destroyed node and `push_back(3)` writes through it. -/
theorem C4_push_back_follows_invalid_last :
    (∃ h l, run ([] : Heap Nat) default_list [.push_front 1] = .ok (h, l) ∧
      l.last = none ∧ push_back h l 2 = .error .nullDeref) ∧
    (∃ h l, run ([] : Heap Nat) default_list [.push_back 1, .push_back 2, .remove 1] =
        .ok (h, l) ∧
      l.last = some 1 ∧ h[1]? = some none ∧ push_back h l 3 = .error .invalidDeref) :=
  ⟨⟨_, _, rfl, rfl, rfl⟩, ⟨_, _, rfl, rfl, rfl, rfl⟩⟩

/-- C5 (code defect): after `push_front(1)` on a default list the list is non-empty,
`front()` returns `1`, and `back()` dereferences the none `last`; after
`push_back(1); push_back(2); remove(1)` `back()` reads the destroyed node. -/
theorem C5_back_reads_invalid_last :
    (∃ h l, run ([] : Heap Nat) default_list [.push_front 1] = .ok (h, l) ∧
      empty l = false ∧ front h l = .ok 1 ∧ back h l = .error .nullDeref) ∧
    (∃ h l, run ([] : Heap Nat) default_list [.push_back 1, .push_back 2, .remove 1] =
        .ok (h, l) ∧
      empty l = false ∧ front h l = .ok 1 ∧ back h l = .error .invalidDeref) :=
  ⟨⟨_, _, rfl, rfl, rfl, rfl⟩, ⟨_, _, rfl, rfl, rfl, rfl⟩⟩

/-- C7 (code defect): `clear()` does not touch the cache.  After
`push_back(1); push_back(2); push_back(3)` and an access at index `2`, `clear()` leaves
`cache == (2, destroyed node)`, not `(0, none)`; after `push_back` of `4, 5, 6` the cache
is `(2, first)` and indexed access at `2` returns `4` instead of `6`. -/
theorem C7_clear_keeps_stale_cache :
    ∃ h l h2 l2 h3 l3 l4,
      run ([] : Heap Nat) default_list
        [.push_back 1, .push_back 2, .push_back 3, .index 2] = .ok (h, l) ∧
      Inv h l [(0, 1), (1, 2), (2, 3)] ∧
      clear h l = .ok (h2, l2) ∧
      size l2 = 0 ∧ l2.first = none ∧ l2.last = none ∧
      l2.cache = ⟨2, some 2⟩ ∧ h2[2]? = some none ∧ l2 ≠ default_list ∧
      push_all h2 l2 [4, 5, 6] = .ok (h3, l3) ∧
      l3.cache = ⟨2, l3.first⟩ ∧
      index h3 l3 2 = .ok (4, l4) :=
  ⟨_, _, _, _, _, _, _, rfl, by decide, rfl, rfl, rfl, rfl, rfl, rfl, by decide, rfl, rfl, rfl⟩

/-- C8 (code defect): after `push_front(1)` on a default list the list is non-empty and
`first` is a node, but `last` is none, so no node sequence satisfies the invariants;
after `push_back(1); push_back(2); remove(1)` `last` refers to the destroyed node. -/
theorem C8_invariants_broken_by_push_front_and_remove :
    (∃ h l, run ([] : Heap Nat) default_list [.push_front 1] = .ok (h, l) ∧
      empty l = false ∧ l.first = some 0 ∧ l.last = none ∧
      ∀ ns : List (Nat × Nat), ¬ Inv h l ns) ∧
    (∃ h l, run ([] : Heap Nat) default_list [.push_back 1, .push_back 2, .remove 1] =
        .ok (h, l) ∧
      l.first = some 0 ∧ l.last = some 1 ∧ h[1]? = some none ∧
      ∀ ns : List (Nat × Nat), ¬ Inv h l ns) := by
  refine ⟨⟨_, _, rfl, rfl, rfl, rfl, ?_⟩, ⟨_, _, rfl, rfl, rfl, rfl, ?_⟩⟩
  · intro ns hinv
    have hl : (none : Option Nat) = (ns.getLast?).map Prod.fst := hinv.last_eq
    have hf : some 0 = hd ns := hinv.first_eq
    cases ns with
    | nil => exact absurd hf (by simp [hd, hdOr])
    | cons x r =>
      rcases hg : (x :: r).getLast? with _ | y
      · simp at hg
      · rw [hg] at hl
        exact absurd hl (by simp)
  · intro ns hinv
    have := hinv.last_mem (a := 1) rfl
    obtain ⟨x, hx, hx1⟩ := List.mem_map.1 this
    obtain ⟨i, hi, rfl⟩ := List.getElem_of_mem hx
    have hg := hinv.cells.get hi
    rw [hx1] at hg
    have h1 := hg.symm.trans (show _ = some none from rfl)
    simp at h1

/-- C9 as stated fails for an element type with a value that differs from itself, as a
floating-point NaN does (here `none`, under a symmetric comparison): two lists built
independently from default lists by the same `push_back` sequence satisfy the invariants,
have the same size and hold the same values in the same order, yet `==` returns false and
`!=` returns true. -/
theorem C9_equality_self_unequal_counterexample :
    (∀ x y : Option Nat, (!(x.isSome && y.isSome && x == y)) = !(y.isSome && x.isSome && y == x)) ∧
    ∃ h1 l1 h2 l2,
      push_all ([] : Heap (Option Nat)) default_list [none] = .ok (h1, l1) ∧
      push_all h1 default_list [none] = .ok (h2, l2) ∧
      Inv h2 l1 [(0, none)] ∧ Inv h2 l2 [(1, none)] ∧
      size l1 = size l2 ∧
      values [(0, (none : Option Nat))] = values [(1, (none : Option Nat))] ∧
      op_eq (fun x y : Option Nat => !(x.isSome && y.isSome && x == y)) h2 0 1 l1 l2 =
        .ok false ∧
      op_ne (fun x y : Option Nat => !(x.isSome && y.isSome && x == y)) h2 0 1 l1 l2 =
        .ok true := by
  refine ⟨?_, _, _, _, _, rfl, rfl, by decide, by decide, rfl, rfl, rfl, rfl⟩
  intro x y
  cases x <;> cases y <;> simp [eq_comm]

/-- C9 (amended): for two list states `a`, `b` (at object addresses `pa`, `pb`) satisfying the
data-model invariants in the same heap, with an element comparison `ne` (`operator!=`
of the element type) under which no value differs from itself: `a == b` returns, and
returns true if and only if `a.size() == b.size()` and at every index the two values do
not differ; `a != b` returns its negation; `a == a` is true; for a symmetric `ne`,
`b == a` returns the same as `a == b`; and two lists built independently from default
lists by the same `push_back` sequence compare equal. -/
theorem C9_equality {T : Type} (ne : T → T → Bool) {h : Heap T} {a b : LinkedList}
    {xs ys : List (Nat × T)} (ha : Inv h a xs) (hb : Inv h b ys) (pa pb : Nat)
    (hid : pa = pb → a = b) (hirr : ∀ x, ne x x = false) :
    ∃ r, op_eq ne h pa pb a b = .ok r ∧
      (r = true ↔ size a = size b ∧
        ∀ (i : Nat) (hi : i < xs.length) (hj : i < ys.length), ne xs[i].2 ys[i].2 = false) ∧
      op_ne ne h pa pb a b = .ok (!r) ∧
      op_eq ne h pa pa a a = .ok true ∧
      ((∀ x y, ne x y = ne y x) → op_eq ne h pb pa b a = .ok r) ∧
      (∀ (h0 : Heap T) (vs : List T), pa ≠ pb →
        ∃ h1 l1 h2 l2, push_all h0 default_list vs = .ok (h1, l1) ∧
          push_all h1 default_list vs = .ok (h2, l2) ∧
          op_eq ne h2 pa pb l1 l2 = .ok true) := by
  obtain ⟨r, e, hr⟩ := op_eq_spec ne ha hb pa pb hid hirr
  refine ⟨r, e, ?_, ?_, ?_, ?_, ?_⟩
  · rw [hr, forall₂_iff_index, size, size, ha.length_eq, hb.length_eq]
  · simp only [op_ne, e]
  · simp [op_eq]
  · intro hsymm
    obtain ⟨r2, e2, hr2⟩ := op_eq_spec ne hb ha pb pa (fun e => (hid e.symm).symm) hirr
    have : r2 = r := by
      have h1 : (r2 = true ↔ r = true) := by
        rw [hr2, hr, forall₂_iff_index, forall₂_iff_index]
        constructor
        · rintro ⟨hl, hall⟩
          exact ⟨hl.symm, fun i hi hj => by rw [hsymm]; exact hall i hj hi⟩
        · rintro ⟨hl, hall⟩
          exact ⟨hl.symm, fun i hi hj => by rw [hsymm]; exact hall i hj hi⟩
      cases r <;> cases r2 <;> simp_all
    rw [e2, this]
  · intro h0 vs hp
    obtain ⟨h1, l1, ms1, e1, hinv1, hv1, -⟩ := push_all_default_inv h0 vs
    obtain ⟨h2, l2, ms2, e2, hinv2, hv2, hfr⟩ := push_all_default_inv h1 vs
    have hinv1b : Inv h2 l1 ms1 :=
      ⟨hinv1.first_eq, hinv1.cells.heap_agree hfr, hinv1.length_eq, hinv1.last_eq,
        hinv1.cache_ok⟩
    obtain ⟨r3, e3, hr3⟩ := op_eq_spec ne hinv1b hinv2 pa pb (fun e => absurd e hp) hirr
    have hl : ms1.length = ms2.length := by
      have h1 := congrArg List.length hv1
      have h2 := congrArg List.length hv2
      simp only [values, List.length_map] at h1 h2
      omega
    have : r3 = true := by
      rw [hr3, forall₂_iff_index]
      refine ⟨hl, fun i hi hj => ?_⟩
      have hvi : ms1[i].2 = ms2[i].2 := by
        have h1 : (values ms1)[i]? = (values ms2)[i]? := by rw [hv1, hv2]
        simpa [values, List.getElem?_eq_getElem hi, List.getElem?_eq_getElem hj] using h1
      rw [hvi]
      exact hirr _
    exact ⟨h1, l1, h2, l2, e1, e2, by rw [e3, this]⟩

/-- C9 witness: two one-node lists holding `1` and `1` at different addresses. -/
theorem C9_equality_witness :
    Inv ([some ⟨1, none⟩, some ⟨1, none⟩] : Heap Nat) ⟨1, some 0, some 0, ⟨0, some 0⟩⟩ [(0, 1)] ∧
    Inv ([some ⟨1, none⟩, some ⟨1, none⟩] : Heap Nat) ⟨1, some 1, some 1, ⟨0, some 1⟩⟩ [(1, 1)] ∧
    ∃ r, op_eq (fun x y : Nat => x != y) ([some ⟨1, none⟩, some ⟨1, none⟩] : Heap Nat) 0 1
        ⟨1, some 0, some 0, ⟨0, some 0⟩⟩ ⟨1, some 1, some 1, ⟨0, some 1⟩⟩ = .ok r ∧
      (r = true ↔ size (⟨1, some 0, some 0, ⟨0, some 0⟩⟩ : LinkedList) =
          size (⟨1, some 1, some 1, ⟨0, some 1⟩⟩ : LinkedList) ∧
        ∀ (i : Nat) (hi : i < List.length [(0, 1)]) (hj : i < List.length [(1, 1)]),
          (([(0, 1)] : List (Nat × Nat))[i].2 != ([(1, 1)] : List (Nat × Nat))[i].2) = false) ∧
      op_ne (fun x y : Nat => x != y) ([some ⟨1, none⟩, some ⟨1, none⟩] : Heap Nat) 0 1
        ⟨1, some 0, some 0, ⟨0, some 0⟩⟩ ⟨1, some 1, some 1, ⟨0, some 1⟩⟩ = .ok (!r) ∧
      op_eq (fun x y : Nat => x != y) ([some ⟨1, none⟩, some ⟨1, none⟩] : Heap Nat) 0 0
        ⟨1, some 0, some 0, ⟨0, some 0⟩⟩ ⟨1, some 0, some 0, ⟨0, some 0⟩⟩ = .ok true ∧
      ((∀ x y : Nat, (x != y) = (y != x)) →
        op_eq (fun x y : Nat => x != y) ([some ⟨1, none⟩, some ⟨1, none⟩] : Heap Nat) 1 0
          ⟨1, some 1, some 1, ⟨0, some 1⟩⟩ ⟨1, some 0, some 0, ⟨0, some 0⟩⟩ = .ok r) ∧
      (∀ (h0 : Heap Nat) (vs : List Nat), (0 : Nat) ≠ 1 →
        ∃ h1 l1 h2 l2, push_all h0 default_list vs = .ok (h1, l1) ∧
          push_all h1 default_list vs = .ok (h2, l2) ∧
          op_eq (fun x y : Nat => x != y) h2 0 1 l1 l2 = .ok true) :=
  ⟨by decide, by decide,
    C9_equality (fun x y : Nat => x != y) (by decide) (by decide) 0 1 (by decide) (by simp)⟩

/-- C10 (code defect): copy-constructing from an empty list returns before the cache is
assigned, so the copy keeps whatever the uninitialised `cache` member held: the copy of
a default list is `{0, none, none, uninit.cache}` for every `uninit`.  With indeterminate
contents `cache == (1, node)` the copy's cache is not `(0, head)`, and after
`push_back(10); push_back(20)` on the copy indexed access at `1` returns `10`. -/
theorem C10_copy_of_empty_list_leaves_cache_unset :
    (∀ (h : Heap Nat) (uninit : LinkedList),
      copy_construct h uninit default_list =
        .ok (h, { length := 0, first := none, last := none, cache := uninit.cache })) ∧
    ∃ h2 b h3 b3 b4,
      copy_construct ([] : Heap Nat) ⟨7, some 5, some 6, ⟨1, some 9⟩⟩ default_list = .ok (h2, b) ∧
      size b = 0 ∧ b.first = none ∧ b.cache ≠ ⟨0, b.first⟩ ∧
      push_all h2 b [10, 20] = .ok (h3, b3) ∧
      Cells h3 [(0, 10), (1, 20)] ∧ b3.first = some 0 ∧
      index h3 b3 1 = .ok (10, b4) :=
  ⟨fun _ _ => rfl, _, _, _, _, _, rfl, rfl, rfl, by decide, rfl, by decide, rfl, rfl⟩

/-- C11 (code defect): the move constructor initialises only `first` and `last`, so
after the swap the moved-from list holds the indeterminate `length` and `cache` of the
new object: for every `uninit`, the donor ends as
`{uninit.length, none, none, uninit.cache}`.  Moving `[1, 2]` into an object whose
storage held `length == 7` gives the new list the two nodes, but leaves the donor with
`size() == 7`, `empty() == false` and `first == last == none`; `front()` then passes
its assertion and dereferences null. -/
theorem C11_move_construct_leaves_donor_length_unset :
    (∀ (uninit a : LinkedList), move_construct uninit a =
      (a, { length := uninit.length, first := none, last := none, cache := uninit.cache })) ∧
    ∃ h a b a2,
      run ([] : Heap Nat) default_list [.push_back 1, .push_back 2] = .ok (h, a) ∧
      Inv h a [(0, 1), (1, 2)] ∧
      move_construct ⟨7, some 5, some 6, ⟨3, some 9⟩⟩ a = (b, a2) ∧
      Inv h b [(0, 1), (1, 2)] ∧ size b = 2 ∧
      size a2 = 7 ∧ empty a2 = false ∧ a2.first = none ∧ a2.last = none ∧
      front h a2 = .error .nullDeref :=
  ⟨fun _ _ => rfl, _, _, _, _, rfl, by decide, rfl, by decide, rfl, rfl, rfl, rfl, rfl, rfl⟩

/-- C12: `swap(a, b)` exchanges all four members (`length`, `first`, `last`, `cache`):
afterwards `a` holds the prior state of `b` and `b` that of `a`; it has no access to the
heap, so a chain that represented a list before represents the other object after;
`swap` applied twice restores both lists; and move-assignment `a = move(b)` produces
exactly the pair of states `swap(a, b)` produces. -/
theorem C12_swap_exchanges_states (a b : LinkedList) :
    swap a b = (b, a) ∧
    ((swap a b).1.length = b.length ∧ (swap a b).1.first = b.first ∧
      (swap a b).1.last = b.last ∧ (swap a b).1.cache = b.cache) ∧
    ((swap a b).2.length = a.length ∧ (swap a b).2.first = a.first ∧
      (swap a b).2.last = a.last ∧ (swap a b).2.cache = a.cache) ∧
    (∀ (T : Type) (h : Heap T) (ns : List (Nat × T)),
      (Inv h a ns → Inv h (swap a b).2 ns) ∧ (Inv h b ns → Inv h (swap a b).1 ns)) ∧
    swap (swap a b).1 (swap a b).2 = (a, b) ∧
    move_assign a b = swap a b :=
  ⟨rfl, ⟨rfl, rfl, rfl, rfl⟩, ⟨rfl, rfl, rfl, rfl⟩, fun _ _ _ => ⟨fun hi => hi, fun hi => hi⟩,
    rfl, rfl⟩

/-- C15 (code defect): three reachable states with an inconsistent cache.
After `push_front(1)` on a default list the cache is `(1, none)`.  After three
`push_back` calls, an access at index `2` and `clear()`, `cache.node` still refers to
the destroyed node `2` although the chain is empty.  After two further `push_back`
calls the cache is `(2, first)`: the cached node is at distance `0`, not `2`. -/
theorem C15_cache_inconsistent_after_push_front_and_clear :
    (∃ h l, run ([] : Heap Nat) default_list [.push_front 1] = .ok (h, l) ∧
      l.cache = ⟨1, none⟩) ∧
    (∃ h l, run ([] : Heap Nat) default_list
        [.push_back 1, .push_back 2, .push_back 3, .index 2, .clear] = .ok (h, l) ∧
      l.first = none ∧ l.cache = ⟨2, some 2⟩ ∧ h[2]? = some none) ∧
    (∃ h l, run ([] : Heap Nat) default_list
        [.push_back 1, .push_back 2, .push_back 3, .index 2, .clear,
          .push_back 4, .push_back 5] = .ok (h, l) ∧
      l.first = some 3 ∧ Cells h [(3, 4), (4, 5)] ∧ l.cache = ⟨2, some 3⟩ ∧
      ∀ ns : List (Nat × Nat), ¬ Inv13 h l ns) := by
  refine ⟨⟨_, _, rfl, rfl⟩, ⟨_, _, rfl, rfl, rfl, rfl⟩,
    ⟨[none, none, none, some ⟨4, some 4⟩, some ⟨5, none⟩], ⟨2, some 3, some 4, ⟨2, some 3⟩⟩,
      rfl, rfl, by decide, rfl, ?_⟩⟩
  intro ns hinv
  have hc : Cells ([none, none, none, some ⟨4, some 4⟩, some ⟨5, none⟩] : Heap Nat)
      [(3, 4), (4, 5)] := by decide
  have hns : ns = [(3, 4), (4, 5)] := hinv.cells.det hc (hinv.first_eq.symm.trans rfl)
  subst hns
  have := hinv.cache_ok
  revert this
  decide

/-! ## Iteration -/

theorem remove_cache_zero {T : Type} {h : Heap T} {l : LinkedList} {v : T} {nx : Option Nat}
    (hr : l.cache.idx = 0 → h.read l.cache.node = .ok ⟨v, nx⟩) (hfirst : l.first = nx) :
    remove_cache h l 0 =
      .ok { l with cache := if l.cache.idx = 0 then { idx := 0, node := nx }
                            else { idx := l.cache.idx - 1, node := l.cache.node } } := by
  unfold remove_cache
  by_cases c0 : l.cache.idx = 0
  · rw [if_pos c0.symm, hr c0, if_pos c0]
    by_cases hn : nx = none
    · subst hn
      simp only [if_true, hfirst]
    · simp only [hn, if_false]
      congr 2
      rw [Cache.mk.injEq]
      exact ⟨c0, rfl⟩
  · rw [if_neg (fun e => c0 e.symm), if_pos (Nat.pos_of_ne_zero c0), if_neg c0]

theorem remove_cache_spec {T : Type} {h : Heap T} {l : LinkedList} {ns : List (Nat × T)}
    (hinv : Inv h l ns) {idx : Nat} (hidx : idx < ns.length)
    (hc : l.cache.node = none → idx < l.cache.idx) :
    ∃ h2 l2, remove h l idx = .ok (h2, l2) ∧
      l2.first = hd (ns.eraseIdx idx) ∧
      l2.cache =
        (if idx = 0 then
          (if l.cache.idx = 0 then { idx := 0, node := (ns[1]?).map Prod.fst }
           else { idx := l.cache.idx - 1, node := l.cache.node })
         else { idx := idx - 1, node := (ns[idx - 1]?).map Prod.fst }) := by
  have hlen : idx < l.length := by rw [hinv.length_eq]; exact hidx
  rcases Nat.eq_zero_or_pos idx with h0 | hpos
  · subst h0
    cases ns with
    | nil => simp at hidx
    | cons x r =>
      obtain ⟨a, v⟩ := x
      have hf : l.first = some a := hinv.first_eq
      have hra : h.read (some a) = .ok ⟨v, hd r⟩ := by
        simp only [Heap.read, hinv.cells.1]; rfl
      have hcache : l.cache.idx = 0 → h.read l.cache.node = .ok ⟨v, hd r⟩ := by
        intro e0
        rcases hinv.cache_ok with hn | hn
        · have := hc hn
          omega
        · rw [e0] at hn
          have : l.cache.node = some a := by simpa using hn.symm
          rw [this]; exact hra
      have e3 := remove_cache_zero (h := h)
        (l := { l with first := hd r, length := l.length - 1 }) hcache rfl
      refine ⟨h.set a none,
        { length := l.length - 1, first := hd r, last := l.last,
          cache := if l.cache.idx = 0 then { idx := 0, node := hd r }
                   else { idx := l.cache.idx - 1, node := l.cache.node } }, ?_, rfl, ?_⟩
      · simp only [remove, hlen, if_true, remove_unlink, hf, hra, e3, Heap.delete,
          hinv.cells.1]
      · have h1 : (((a, v) :: r)[1]?).map Prod.fst = hd r := by
          rw [← hd_drop]; rfl
        simp only [if_true, h1]
  · obtain ⟨j, rfl⟩ : ∃ j, idx = j + 1 := ⟨idx - 1, by omega⟩
    have hj : j < ns.length := by omega
    have hg := get_node_inv hinv.to13 hj (fun hn => by have := hc hn; omega)
    have hrp := hinv.cells.read hj
    rw [hd_drop_of_lt hidx] at hrp
    have hrn := hinv.cells.read hidx
    have hpn : ns[j].1 ≠ ns[j + 1].1 := fun e => by
      have := hinv.cells.addr_inj hj hidx e
      omega
    have hcellp := hinv.cells.get hj
    have hlive : (h.set ns[j].1 (some ⟨ns[j].2, hd (ns.drop (j + 1 + 1))⟩))[ns[j + 1].1]? =
        some (some ⟨ns[j + 1].2, hd (ns.drop (j + 1 + 1))⟩) := by
      rw [List.getElem?_set_ne hpn]; exact hinv.cells.get hidx
    have e3 : remove_cache (h.set ns[j].1 (some ⟨ns[j].2, hd (ns.drop (j + 1 + 1))⟩))
        { length := l.length - 1, first := l.first, last := l.last,
          cache := { idx := j, node := some ns[j].1 } } (j + 1) =
        .ok { length := l.length - 1, first := l.first, last := l.last,
              cache := { idx := j, node := some ns[j].1 } } := by
      simp [remove_cache]
    refine ⟨(h.set ns[j].1 (some ⟨ns[j].2, hd (ns.drop (j + 1 + 1))⟩)).set ns[j + 1].1 none,
      { length := l.length - 1, first := l.first, last := l.last,
        cache := { idx := j, node := some ns[j].1 } }, ?_, ?_, ?_⟩
    · simp only [remove, hlen, if_true, remove_unlink, Nat.succ_ne_zero, if_false,
        Nat.add_sub_cancel, get_node, hg, hrp, hrn, Heap.setNext, hcellp, e3, Heap.delete, hlive]
    · rw [hd_eraseIdx_succ]
      exact hinv.first_eq
    · simp [List.getElem?_eq_getElem hj]

/-- C17 as stated fails for `idx > 0`: on `[1, 2, 3]` built by `push_back`, with the
cache at `(1, node 1)` after an access at index `1`, `remove(1)` (`idx == c`) leaves the
cache at `(0, node 0)`, the predecessor found by `get_node(idx - 1)`, not at
`(1, node 2)`; with the cache at `(2, node 2)`, `remove(1)` (`idx < c`) also leaves
`(0, node 0)`, not `(1, node 2)`. -/
theorem C17_remove_cache_counterexample :
    (∃ h l h2 l2,
      run ([] : Heap Nat) default_list
        [.push_back 1, .push_back 2, .push_back 3, .index 1] = .ok (h, l) ∧
      Inv h l [(0, 1), (1, 2), (2, 3)] ∧ l.cache = ⟨1, some 1⟩ ∧
      remove h l 1 = .ok (h2, l2) ∧ l2.cache = ⟨0, some 0⟩ ∧ l2.cache ≠ ⟨1, some 2⟩) ∧
    (∃ h l h2 l2,
      run ([] : Heap Nat) default_list
        [.push_back 1, .push_back 2, .push_back 3, .index 2] = .ok (h, l) ∧
      Inv h l [(0, 1), (1, 2), (2, 3)] ∧ l.cache = ⟨2, some 2⟩ ∧
      remove h l 1 = .ok (h2, l2) ∧ l2.cache = ⟨0, some 0⟩ ∧ l2.cache ≠ ⟨2 - 1, some 2⟩) :=
  ⟨⟨_, _, _, _, rfl, by decide, rfl, rfl, rfl, by decide⟩,
    ⟨_, _, _, _, rfl, by decide, rfl, rfl, rfl, by decide⟩⟩

/-- C17 (amended): for every list state satisfying the data-model invariants with nodes
`ns` and cache `(c, n)`, and every `idx < length` such that `n` is non-none or `c > idx`,
`remove(idx)` returns and leaves the cache as follows.  For `idx == 0`: if `c == 0` the
cache becomes `(0, former successor of the removed node)`, which is `(0, first)` (none
when there is no successor); if `0 < c` it becomes `(c - 1, n)`.  For `idx > 0` the
cache becomes `(idx - 1, predecessor of the removed node)`, whatever `c` was. -/
theorem C17_remove_cache_update {T : Type} {h : Heap T} {l : LinkedList}
    {ns : List (Nat × T)} (hinv : Inv h l ns) {idx : Nat} (hidx : idx < l.length)
    (hc : l.cache.node = none → idx < l.cache.idx) :
    ∃ h2 l2, remove h l idx = .ok (h2, l2) ∧
      (idx = 0 → l.cache.idx = 0 →
        l2.cache = { idx := 0, node := (ns[1]?).map Prod.fst } ∧ l2.cache.node = l2.first) ∧
      (idx = 0 → 0 < l.cache.idx →
        l2.cache = { idx := l.cache.idx - 1, node := l.cache.node }) ∧
      (0 < idx → l2.cache = { idx := idx - 1, node := (ns[idx - 1]?).map Prod.fst }) := by
  have hi : idx < ns.length := by rw [← hinv.length_eq]; exact hidx
  obtain ⟨h2, l2, e, hf, hcache⟩ := remove_cache_spec hinv hi hc
  refine ⟨h2, l2, e, ?_, ?_, ?_⟩
  · intro h0 c0
    rw [hcache, if_pos h0, if_pos c0]
    refine ⟨rfl, ?_⟩
    rw [hf, h0, List.eraseIdx_zero, ← List.drop_one, hd_drop]
  · intro h0 c0
    rw [hcache, if_pos h0, if_neg (by omega)]
  · intro hpos
    rw [hcache, if_neg (by omega)]

/-- C17 witness: `remove(0)` on `[1, 2, 3]` with the cache at the head. -/
theorem C17_remove_cache_update_witness :
    Inv ([some ⟨1, some 1⟩, some ⟨2, some 2⟩, some ⟨3, none⟩] : Heap Nat)
      ⟨3, some 0, some 2, ⟨0, some 0⟩⟩ [(0, 1), (1, 2), (2, 3)] ∧
    ∃ h2 l2, remove ([some ⟨1, some 1⟩, some ⟨2, some 2⟩, some ⟨3, none⟩] : Heap Nat)
        ⟨3, some 0, some 2, ⟨0, some 0⟩⟩ 0 = .ok (h2, l2) ∧
      ((0 : Nat) = 0 → (⟨3, some 0, some 2, ⟨0, some 0⟩⟩ : LinkedList).cache.idx = 0 →
        l2.cache = { idx := 0,
                     node := (([(0, 1), (1, 2), (2, 3)] : List (Nat × Nat))[1]?).map Prod.fst } ∧
        l2.cache.node = l2.first) ∧
      ((0 : Nat) = 0 → 0 < (⟨3, some 0, some 2, ⟨0, some 0⟩⟩ : LinkedList).cache.idx →
        l2.cache = { idx := (⟨3, some 0, some 2, ⟨0, some 0⟩⟩ : LinkedList).cache.idx - 1,
                     node := (⟨3, some 0, some 2, ⟨0, some 0⟩⟩ : LinkedList).cache.node }) ∧
      ((0 : Nat) < 0 →
        l2.cache = { idx := 0 - 1,
                     node := (([(0, 1), (1, 2), (2, 3)] : List (Nat × Nat))[0 - 1]?).map
                       Prod.fst }) :=
  ⟨by decide, C17_remove_cache_update (by decide) (by decide) (by decide)⟩

/-! ## Pointers that cannot be followed -/

theorem Dead.setNext {T : Type} {h : Heap T} {p : Option Nat} (hp : Dead h p)
    (q : Option Nat) : ∃ e, h.setNext p q = .error e := by
  cases p with
  | none => exact ⟨_, rfl⟩
  | some a =>
    have : h[a]? = some none := hp
    exact ⟨.invalidDeref, by simp only [Heap.setNext, this]⟩

/-- Every empty list state that satisfies the four invariants is one in which a list can
start. -/
theorem reach_of_empty {T : Type} {h : Heap T} {l : LinkedList}
    (hinv : Inv h l ([] : List (Nat × T))) : Reach h l := by
  have hf : l.first = none := hinv.first_eq
  have hl : l.last = none := hinv.last_eq
  have hlen : l.length = 0 := hinv.length_eq
  have hc : l.cache.node = none := by
    rcases hinv.cache_ok with h0 | h0
    · exact h0
    · rw [← h0]; rfl
  have e : l = { length := 0, first := none, last := none, cache := l.cache } := by
    obtain ⟨n, f, t, c⟩ := l
    simp only at hf hl hlen
    rw [hf, hl, hlen]
  rw [e]
  exact Reach.init h l.cache (Or.inl (by rw [hc]; trivial))

end LL
